import Mathlib

/-!
Verification of the AHP numeric engine (`multicriterio/multicriterio.py`).

The Python source is shallowly embedded over exact arithmetic: matrices are
lists of rows of rationals (reals for the geometric-mean method, whose n-th
roots are irrational), numpy's half-to-even rounding is modelled exactly,
fallible operations return `Option`/a result type, and the engine's shared
mutable accumulator `prioridades_globais` is threaded as explicit state.
-/

/-- numpy's round-half-to-even on a scalar, result as an integer:
`np.round` rounds to the nearest integer, ties going to the even integer. -/
def npRoundInt {α : Type} [LinearOrderedField α] [FloorRing α] (x : α) : ℤ :=
  if x - ((⌊x⌋ : ℤ) : α) < 1 / 2 then ⌊x⌋
  else if (1 / 2 : α) < x - ((⌊x⌋ : ℤ) : α) then ⌊x⌋ + 1
  else if ⌊x⌋ % 2 = 0 then ⌊x⌋ else ⌊x⌋ + 1

/-- numpy's `arr.round(precisao)` on a scalar: round half-to-even at `p`
decimal digits. -/
def npRound {α : Type} [LinearOrderedField α] [FloorRing α] (p : ℕ) (x : α) : α :=
  ((npRoundInt (x * (10 : α) ^ p) : ℤ) : α) / (10 : α) ^ p

/-- Half an ulp at `p` decimal digits: the largest possible perturbation a
single `npRound p` application introduces. -/
def tol (α : Type) [LinearOrderedField α] (p : ℕ) : α := 1 / (2 * (10 : α) ^ p)

/-- Number of columns of a list-of-rows matrix (numpy shape component 1 for a
rectangular array). -/
def numCols {α : Type} (m : List (List α)) : ℕ := (m.headD []).length

/-- Rectangular matrix of the given shape: `rows` rows, every row of length
`cols` (the shape numpy infers from a well-formed nested list). -/
def wfMat {α : Type} (m : List (List α)) (rows cols : ℕ) : Prop :=
  m.length = rows ∧ ∀ r ∈ m, r.length = cols

/-- Embeds `matriz.sum(axis=0)`: the vector of column sums. -/
def colSums {α : Type} [AddCommMonoid α] (m : List (List α)) : List α :=
  (List.range (numCols m)).map (fun j => (m.map (fun r => r.getD j 0)).sum)

/-- Embeds `AHP.aproximado` (multicriterio.py lines 54-58): divide each column
by its sum (`np.divide` broadcasting row-wise), take the mean of each row, and
round to `precisao` digits.  The numpy code performs no squareness check and
raises no error on a rectangular non-square input. -/
def aproximado {α : Type} [LinearOrderedField α] [FloorRing α]
    (matriz : List (List α)) (precisao : ℕ) : List α :=
  let soma_colunas := colSums matriz
  let matriz_norm := matriz.map (fun r => List.zipWith (fun a b => a / b) r soma_colunas)
  let media_linhas := matriz_norm.map (fun r => r.sum / (r.length : α))
  media_linhas.map (npRound precisao)

/-- Embeds `AHP.geometrico` (multicriterio.py lines 76-79): the geometric mean
of each row (`np.prod(linha) ** (1 / len(linha))`, a real n-th root, hence the
embedding over `ℝ`), normalized by the total and rounded.  No squareness check
is performed. -/
noncomputable def geometrico (matriz : List (List ℝ)) (precisao : ℕ) : List ℝ :=
  let media_geometrica := matriz.map (fun linha => linha.prod ^ ((1 : ℝ) / (linha.length : ℝ)))
  let media_geometrica_norm := media_geometrica.map (fun x => x / media_geometrica.sum)
  media_geometrica_norm.map (npRound precisao)

/-- Matrix product of two list-of-rows matrices over ℚ (numpy `matmul` on
well-formed rectangular inputs). -/
def matMulL (a b : List (List ℚ)) : List (List ℚ) :=
  a.map (fun r => (List.range (numCols b)).map
    (fun j => (List.zipWith (fun x br => x * br.getD j 0) r b).sum))

/-- Embeds `matrix_power(matriz, 2)`. -/
def matSq (m : List (List ℚ)) : List (List ℚ) := matMulL m m

/-- The squareness test `numpy.linalg.matrix_power` performs before computing:
every row as long as the number of rows (for a rectangular array this is
`shape[-2] == shape[-1]`); on failure the numpy call raises `LinAlgError`. -/
def isSquareL (m : List (List ℚ)) : Bool :=
  m.all (fun r => decide (r.length = m.length))

/-- Embeds `AHP.autovalor` (multicriterio.py lines 83-114), the power-iteration
eigenvector method.  `fuel` is the `interacao` budget (default 100 at the call
site).  Each step squares the matrix, normalizes its row sums to get the
current estimate, and compares it (rounded) with the previous estimate
(`np.zeros` initially); the Python recursion `interacao -= 1; ... if
interacao > 0` recurses exactly when the incoming budget is at least 2.
`none` models the `LinAlgError` raised by `matrix_power` on non-square input. -/
def autovalor (precisao : ℕ) : ℕ → List (List ℚ) → Option (List ℚ) → Option (List ℚ)
  | interacao, matriz, autovetor_anterior =>
    if isSquareL matriz then
      let matriz_quadrada := matSq matriz
      let soma_linhas := matriz_quadrada.map List.sum
      let soma_coluna := soma_linhas.sum
      let autovetor_atual := soma_linhas.map (fun x => x / soma_coluna)
      let anterior := autovetor_anterior.getD (List.replicate matriz.length 0)
      let diferenca := (List.zipWith (fun a b => a - b) autovetor_atual anterior).map
        (npRound precisao)
      if diferenca.all (fun x => decide (x = 0)) then
        some (autovetor_atual.map (npRound precisao))
      else
        match interacao with
        | n + 2 => autovalor precisao (n + 1) matriz_quadrada (some autovetor_atual)
        | _ => some (autovetor_atual.map (npRound precisao))
    else none

/-- Iterated squaring: `matIter m k` is the matrix after `k` squaring steps of
`autovalor`, i.e. `m` raised to the power `2 ^ k`. -/
def matIter (m : List (List ℚ)) : ℕ → List (List ℚ)
  | 0 => m
  | k + 1 => matSq (matIter m k)

/-- The power-iteration estimate sequence described by the spec: the zero
vector initially, then for step `k ≥ 1` the row sums of the `k`-times squared
matrix normalized by their total. -/
def estVec (m : List (List ℚ)) : ℕ → List ℚ
  | 0 => List.replicate m.length 0
  | k + 1 =>
    let sl := (matIter m (k + 1)).map List.sum
    sl.map (fun x => x / sl.sum)

/-- Convergence test of the spec at step `k ≥ 1`: the difference between the
step-`k` and step-`k-1` estimates rounds to the all-zero vector at `p`. -/
def convergedAt (m : List (List ℚ)) (p k : ℕ) : Bool :=
  ((List.zipWith (fun a b => a - b) (estVec m k) (estVec m (k - 1))).map (npRound p)).all
    (fun x => decide (x = 0))

/-- Modelled from the spec: return the step-`k` estimate (rounded) for the
first `k` in `1..fuel` at which the rounded difference with the previous
estimate is all-zero, and the step-`fuel` estimate (rounded) if the iteration
budget is exhausted without convergence. -/
def specAutovalor (m : List (List ℚ)) (p fuel : ℕ) : List ℚ :=
  match (List.range' 1 fuel).find? (convergedAt m p) with
  | some k => (estVec m k).map (npRound p)
  | none => (estVec m fuel).map (npRound p)

/-- The three priority-vector algorithms selectable in
`local_priority_vector`. -/
inductive PVKind : Type where
  | aproximado : PVKind
  | geometrico : PVKind
  | autovalor : PVKind
deriving DecidableEq

/-- Embeds the method dispatch of `AHP.local_priority_vector` (multicriterio.py
lines 160-168).  The fallback test is literally
`matriz.shape[0] and matriz.shape[1] >= 2`: a truthy (nonzero) row count and a
column count of at least 2. -/
def selectPV (metodo : String) (rows cols : ℕ) : PVKind :=
  if metodo = "aproximado" then PVKind.aproximado
  else if metodo = "geometrico" then PVKind.geometrico
  else if rows ≠ 0 ∧ 2 ≤ cols then PVKind.autovalor
  else PVKind.aproximado

/-- Association-list lookup: embeds Python dict indexing (`d[k]` /
`k in d`). -/
def lookupL {κ β : Type} [DecidableEq κ] : List (κ × β) → κ → Option β
  | [], _ => none
  | (a, b) :: rest, k => if a = k then some b else lookupL rest k

/-- The Random Index table of `AHP.consistencia` (multicriterio.py lines
138-139), keyed by matrix order; absent keys raise `KeyError` (a
`LookupError`). -/
def randon_consist_index : List (ℕ × ℚ) :=
  [(3, 52/100), (4, 89/100), (5, 111/100), (6, 125/100), (7, 135/100), (8, 140/100),
   (9, 145/100), (10, 149/100), (11, 152/100), (12, 154/100), (13, 156/100),
   (14, 158/100), (15, 159/100)]

/-- Embeds `AHP.consistencia` (multicriterio.py lines 134-146).  The guard is
literally `matriz.shape[0] and matriz.shape[1] > 2` (truthy row count and
column count above 2).  numpy's `eigvals` is a numerical eigensolver with no
exact counterpart, so the dominant eigenvalue `lambda_max` it would return is
taken as a parameter; it is only computed inside the guarded branch and does
not influence which branch is taken or whether the `KeyError` (modelled as
`none`) fires. -/
def consistencia (lambda_max : ℚ) (rows cols : ℕ) : Option (ℚ × ℚ × ℚ) :=
  if rows ≠ 0 ∧ 2 < cols then
    match lookupL randon_consist_index rows with
    | some ri =>
      some (lambda_max, (lambda_max - (rows : ℚ)) / ((rows : ℚ) - 1),
        ((lambda_max - (rows : ℚ)) / ((rows : ℚ) - 1)) / ri)
    | none => none
  else some (0, 0, 0)

/-- Embeds `pesos[criterios.index(criterio)]` (multicriterio.py line 200):
the weight at the index of the FIRST occurrence of `criterio` in `criterios`;
`none` models the `IndexError` when that index falls outside `pesos`. -/
def pesoSel (pesos : List ℚ) (criterios : List String) (criterio : String) : Option ℚ :=
  pesos.get? (criterios.indexOf criterio)

/-- Result of a `global_priority_vector` run: the final accumulator, a Python
runtime error (`KeyError`/`IndexError`), or exhaustion of the modelling fuel
that bounds the (unbounded) Python recursion. -/
inductive Res : Type where
  | ok : List (List ℚ) → Res
  | err : Res
  | fuelOut : Res
deriving DecidableEq

/-- Embeds the `for criterio in criterios` loop body of
`AHP.global_priority_vector` (multicriterio.py lines 199-208), iterating over
the remaining suffix `rest` of the full list `criterios` (used for the
`.index` lookup), threading the shared accumulator `acc` and calling `descend`
for criteria that have sub-criteria. -/
def global_priority_loop (prec : ℕ) (sub : List (String × List String))
    (prios : List (String × List ℚ))
    (descend : List ℚ → List String → List (List ℚ) → Res)
    (pesos : List ℚ) (criterios : List String) :
    List String → List (List ℚ) → Res
  | [], acc => Res.ok acc
  | criterio :: rest, acc =>
    match pesoSel pesos criterios criterio, lookupL prios criterio with
    | some peso, some prioridades_locais =>
      let prioridade_global := prioridades_locais.map (fun x => npRound prec (peso * x))
      match lookupL sub criterio with
      | some children =>
        match descend prioridade_global children acc with
        | Res.ok acc2 => global_priority_loop prec sub prios descend pesos criterios rest acc2
        | r => r
      | none =>
        global_priority_loop prec sub prios descend pesos criterios rest
          (acc ++ [prioridade_global])
    | _, _ => Res.err

/-- Embeds `AHP.global_priority_vector` (multicriterio.py lines 184-208) with
an explicit recursion-depth budget `fuel` (the Python recursion is unbounded;
claim C9 relates `fuel` to the hierarchy depth). -/
def global_priority_vector (prec : ℕ) (sub : List (String × List String))
    (prios : List (String × List ℚ)) :
    ℕ → List ℚ → List String → List (List ℚ) → Res
  | 0, pesos, criterios, acc =>
    global_priority_loop prec sub prios (fun _ _ _ => Res.fuelOut) pesos criterios criterios acc
  | fuel + 1, pesos, criterios, acc =>
    global_priority_loop prec sub prios
      (fun pg ch a => global_priority_vector prec sub prios fuel pg ch a)
      pesos criterios criterios acc

/-- The descent continuation `global_priority_vector` passes to the loop at a
given fuel level. -/
def descendOf (prec : ℕ) (sub : List (String × List String))
    (prios : List (String × List ℚ)) :
    ℕ → List ℚ → List String → List (List ℚ) → Res
  | 0 => fun _ _ _ => Res.fuelOut
  | fuel + 1 => fun pg ch a => global_priority_vector prec sub prios fuel pg ch a

/-- Depth of the sub-criteria hierarchy reachable from a list of nodes: 0 for
a list of leaves, one more than the children's depth for internal nodes;
`none` when the modelling fuel runs out (in particular on every cyclic
hierarchy, which makes the Python recursion diverge). -/
def hierarchy_depth_loop (sub : List (String × List String))
    (descend : List String → Option ℕ) : List String → Option ℕ
  | [] => some 0
  | c :: rest =>
    match hierarchy_depth_loop sub descend rest with
    | none => none
    | some dr =>
      match lookupL sub c with
      | none => some dr
      | some ch =>
        match descend ch with
        | none => none
        | some dc => some (max (dc + 1) dr)

/-- Fuel-bounded hierarchy depth (see `hierarchy_depth_loop`). -/
def hierarchy_depth (sub : List (String × List String)) : ℕ → List String → Option ℕ
  | 0 => hierarchy_depth_loop sub (fun _ => none)
  | fuel + 1 => hierarchy_depth_loop sub (hierarchy_depth sub fuel)

/-- Number of scalar roundings `global_priority_loop` performs on a node list:
the length of each node's local vector, plus the roundings under its
children.  Used to state the rounding-error bound of claim C8. -/
def round_count_loop (sub : List (String × List String))
    (prios : List (String × List ℚ)) (descend : List String → ℕ) : List String → ℕ
  | [] => 0
  | c :: rest =>
    ((lookupL prios c).getD []).length
      + (match lookupL sub c with
        | some ch => descend ch
        | none => 0)
      + round_count_loop sub prios descend rest

/-- Fuel-indexed rounding count matching `global_priority_vector`. -/
def round_count (sub : List (String × List String))
    (prios : List (String × List ℚ)) : ℕ → List String → ℕ
  | 0 => round_count_loop sub prios (fun _ => 0)
  | fuel + 1 => round_count_loop sub prios (round_count sub prios fuel)

/-- Embeds `np.array(l).sum(axis=0)` for a list of equal-length (`n`) rows:
the elementwise sum. -/
def sumAxis0 (n : ℕ) (l : List (List ℚ)) : List ℚ :=
  (List.range n).map (fun j => (l.map (fun v => v.getD j 0)).sum)

/-- Embeds `AHP.local_priority_vector` (multicriterio.py lines 149-181): for
every preference matrix, in order, compute its local priority vector with the
method chosen by `selectPV` and run `consistencia` on it (line 172; the result
is only printed, but its `KeyError` for orders above 15 still propagates, and
the eigenvalue passed here is irrelevant to that).  The geometric-mean method
computes irrational real roots, so the ℚ-valued engine takes it as the
function parameter `geo`. -/
def local_priority_vector (geo : List (List ℚ) → ℕ → List ℚ) (metodo : String)
    (precisao fuel : ℕ) (matrizes_preferencias : List (String × List (List ℚ))) :
    Option (List (String × List ℚ)) :=
  matrizes_preferencias.mapM (fun kv =>
    let matriz := kv.2
    let pv : Option (List ℚ) :=
      match selectPV metodo matriz.length (numCols matriz) with
      | PVKind.aproximado => some (aproximado matriz precisao)
      | PVKind.geometrico => some (geo matriz precisao)
      | PVKind.autovalor => autovalor precisao fuel matriz none
    match pv with
    | none => none
    | some v =>
      match consistencia 0 matriz.length (numCols matriz) with
      | none => none
      | some _ => some (kv.1, v))

/-- Embeds `AHP.resultado` (multicriterio.py lines 215-228).  The engine's
instance attribute `prioridades_globais` — initialized once in `__init__` and
appended to by `global_priority_vector` — is threaded explicitly: `state` is
its value when `resultado` is entered, and the returned pair carries the final
ranking together with its value when `resultado` returns. -/
def resultado (geo : List (List ℚ) → ℕ → List ℚ) (metodo : String)
    (precisao fuel : ℕ) (alternativas criterios : List String)
    (sub_criterios : List (String × List String))
    (matrizes_preferencias : List (String × List (List ℚ)))
    (state : List (List ℚ)) : Option (List (String × ℚ) × List (List ℚ)) :=
  match local_priority_vector geo metodo precisao fuel matrizes_preferencias with
  | none => none
  | some prioridades =>
    match lookupL prioridades "criterios" with
    | none => none
    | some pesos =>
      match global_priority_vector precisao sub_criterios prioridades fuel
          pesos criterios state with
      | Res.ok acc2 =>
        let final := (sumAxis0 (numCols acc2) acc2).map (npRound precisao)
        some (alternativas.zip final, acc2)
      | _ => none

/-- Executable well-formedness check for a hierarchy used by claim C8: every
stored local priority vector sums to 1, internal nodes' vectors are as long as
their (duplicate-free) children lists, and leaf vectors have one entry per
alternative. -/
def hierOk (sub : List (String × List String)) (prios : List (String × List ℚ))
    (nAlts : ℕ) : Bool :=
  prios.all (fun kv =>
    decide (kv.2.sum = 1)
      && (match lookupL sub kv.1 with
        | some ch => decide (kv.2.length = ch.length) && decide ch.Nodup
        | none => decide (kv.2.length = nAlts)))

/-- Difference test of one `autovalor` step: the current estimate minus the
previous one, rounded, is all-zero. -/
def autovalorDifZero (p : ℕ) (m : List (List ℚ)) (ant : Option (List ℚ)) : Bool :=
  ((List.zipWith (fun a b => a - b)
      (((matSq m).map List.sum).map (fun x => x / ((matSq m).map List.sum).sum))
      (ant.getD (List.replicate m.length 0))).map (npRound p)).all
    (fun x => decide (x = 0))

/-- A 2×2 all-ones preference matrix (yields local priorities [1/2, 1/2]). -/
def mat11 : List (List ℚ) := [[1, 1], [1, 1]]

/-- Preference matrices of the concrete engine used to exercise claim C1:
goal-level weights plus one matrix per criterion. -/
def exMats : List (String × List (List ℚ)) :=
  [("criterios", mat11), ("c1", mat11), ("c2", mat11)]

/-- Stand-in for the geometric-mean method in engine-level computations whose
method selector never dispatches to it. -/
def geoStub : List (List ℚ) → ℕ → List ℚ := fun _ _ => []

/-- Entrywise positive matrix (the AHP input contract: Saaty-scale entries). -/
def posMat (m : List (List ℚ)) : Prop := ∀ r ∈ m, ∀ x ∈ r, 0 < x

/-- Reciprocal structure of a pairwise comparison matrix of order `n`. -/
def recipMat (m : List (List ℚ)) (n : ℕ) : Prop :=
  ∀ i < n, ∀ j < n, (m.getD i []).getD j 0 * (m.getD j []).getD i 0 = 1

/-- Unit diagonal of a pairwise comparison matrix of order `n`. -/
def diagOne (m : List (List ℚ)) (n : ℕ) : Prop :=
  ∀ i < n, (m.getD i []).getD i 0 = 1

/-- Entrywise embedding of a rational matrix into the reals (the geometric
mean method computes real roots). -/
def castMat (m : List (List ℚ)) : List (List ℝ) :=
  m.map (fun r => r.map (fun x => ((x : ℚ) : ℝ)))

/-- Total mass of an accumulator: the sum of the sums of its contribution
vectors. -/
def massOf (l : List (List ℚ)) : ℚ := (l.map List.sum).sum

/-- Total weight the loop distributes over a node list: each node's
`pesos[criterios.index(node)]` entry. -/
def sumPesos (pesos : List ℚ) (criterios : List String) (rest : List String) : ℚ :=
  (rest.map (fun c => (pesoSel pesos criterios c).getD 0)).sum

/-- Propositional form of `hierOk`. -/
def hierOkP (sub : List (String × List String)) (prios : List (String × List ℚ))
    (nAlts : ℕ) : Prop :=
  ∀ kv ∈ prios, kv.2.sum = 1
    ∧ (∀ ch, lookupL sub kv.1 = some ch → kv.2.length = ch.length ∧ ch.Nodup)
    ∧ (lookupL sub kv.1 = none → kv.2.length = nAlts)

theorem tol_pos {α : Type} [LinearOrderedField α] (p : ℕ) : 0 < tol α p := by
  have h10 : (0 : α) < (10 : α) ^ p := by positivity
  unfold tol
  positivity

theorem abs_npRoundInt_sub {α : Type} [LinearOrderedField α] [FloorRing α] (x : α) :
    |((npRoundInt x : ℤ) : α) - x| ≤ 1 / 2 := by
  have h0 : (0 : α) ≤ x - (⌊x⌋ : α) := sub_nonneg.2 (Int.floor_le x)
  have h1 : x - (⌊x⌋ : α) < 1 := by
    have := Int.lt_floor_add_one x
    linarith
  unfold npRoundInt
  split_ifs with hlt hgt hev
  · rw [abs_le]
    constructor <;> linarith
  · rw [abs_le]
    push_cast
    constructor <;> linarith
  · rw [abs_le]
    constructor <;> linarith
  · rw [abs_le]
    push_cast
    constructor <;> linarith

theorem abs_npRound_sub {α : Type} [LinearOrderedField α] [FloorRing α] (p : ℕ) (x : α) :
    |npRound p x - x| ≤ tol α p := by
  have h10 : (0 : α) < (10 : α) ^ p := by positivity
  have key : npRound p x - x
      = (((npRoundInt (x * (10 : α) ^ p) : ℤ) : α) - x * (10 : α) ^ p) / (10 : α) ^ p := by
    unfold npRound
    field_simp
    ring
  rw [key, abs_div, abs_of_pos h10]
  have hb := abs_npRoundInt_sub (x * (10 : α) ^ p)
  unfold tol
  rw [div_le_div_iff₀ h10 (by positivity)]
  calc |((npRoundInt (x * (10 : α) ^ p) : ℤ) : α) - x * (10 : α) ^ p| * (2 * (10 : α) ^ p)
      ≤ (1 / 2) * (2 * (10 : α) ^ p) := by
        apply mul_le_mul_of_nonneg_right hb
        positivity
    _ = 1 * (10 : α) ^ p := by ring

theorem abs_sum_map_npRound_sub {α : Type} [LinearOrderedField α] [FloorRing α]
    (p : ℕ) (l : List α) :
    |(l.map (npRound p)).sum - l.sum| ≤ (l.length : α) * tol α p := by
  induction l with
  | nil => simp
  | cons x xs ih =>
    have hx := abs_npRound_sub p x
    have tri : |(npRound p x + (xs.map (npRound p)).sum) - (x + xs.sum)|
        ≤ |npRound p x - x| + |(xs.map (npRound p)).sum - xs.sum| := by
      have : (npRound p x + (xs.map (npRound p)).sum) - (x + xs.sum)
          = (npRound p x - x) + ((xs.map (npRound p)).sum - xs.sum) := by ring
      rw [this]
      exact abs_add _ _
    simp only [List.map_cons, List.sum_cons, List.length_cons]
    push_cast
    calc |(npRound p x + (xs.map (npRound p)).sum) - (x + xs.sum)|
        ≤ |npRound p x - x| + |(xs.map (npRound p)).sum - xs.sum| := tri
      _ ≤ tol α p + (xs.length : α) * tol α p := add_le_add hx ih
      _ = ((xs.length : α) + 1) * tol α p := by ring

theorem list_range_map_sum {α : Type} [AddCommMonoid α] (f : ℕ → α) (n : ℕ) :
    ((List.range n).map f).sum = ∑ j in Finset.range n, f j := by
  induction n with
  | zero => simp
  | succ n ih => simp [List.range_succ, Finset.sum_range_succ, ih]

theorem sum_map_div {α : Type} [DivisionRing α] (l : List α) (c : α) :
    (l.map (fun x => x / c)).sum = l.sum / c := by
  induction l with
  | nil => simp
  | cons x xs ih => simp [ih, add_div]

theorem sum_map_mul_left_sum {α : Type} [CommRing α] (l : List α) (c : α) :
    (l.map (fun x => c * x)).sum = c * l.sum := by
  induction l with
  | nil => simp
  | cons x xs ih => simp [ih]; ring

theorem sum_map_swap {α β : Type} [AddCommMonoid α] (m : List β) (n : ℕ) (g : β → ℕ → α) :
    (m.map (fun r => ∑ j in Finset.range n, g r j)).sum
      = ∑ j in Finset.range n, (m.map (fun r => g r j)).sum := by
  induction m with
  | nil => simp
  | cons r rs ih =>
    simp only [List.map_cons, List.sum_cons, ih]
    rw [← Finset.sum_add_distrib]

theorem zipWith_sum_range {α : Type} [AddCommMonoid α] (f : α → α → α) :
    ∀ (n : ℕ) (r s : List α), r.length = n → s.length = n →
    (List.zipWith f r s).sum = ∑ j in Finset.range n, f (r.getD j 0) (s.getD j 0) := by
  intro n
  induction n with
  | zero =>
    intro r s hr hs
    rw [List.length_eq_zero] at hr hs
    subst hr; subst hs; simp
  | succ n ih =>
    intro r s hr hs
    match r, s with
    | a :: r2, b :: s2 =>
      simp only [List.length_cons, Nat.succ_inj] at hr hs
      simp only [List.zipWith_cons_cons, List.sum_cons]
      rw [Finset.sum_range_succ', ih r2 s2 hr hs]
      simp [add_comm]

theorem getD_range_map {α : Type} (g : ℕ → α) {j n : ℕ} (hj : j < n) (d : α) :
    ((List.range n).map g).getD j d = g j := by
  rw [List.getD_eq_getElem?_getD, List.getElem?_map, List.getElem?_range hj]
  rfl

theorem sum_getD_range {α : Type} [AddCommMonoid α] (v : List α) :
    ∑ j in Finset.range v.length, v.getD j 0 = v.sum := by
  induction v with
  | nil => simp
  | cons x xs ih =>
    simp only [List.length_cons]
    rw [Finset.sum_range_succ']
    simp only [List.getD_cons_succ, List.getD_cons_zero, List.sum_cons]
    rw [ih, add_comm]

theorem gpv_eq_loop (prec : ℕ) (sub : List (String × List String))
    (prios : List (String × List ℚ)) (fuel : ℕ) (pesos : List ℚ)
    (criterios : List String) (acc : List (List ℚ)) :
    global_priority_vector prec sub prios fuel pesos criterios acc
      = global_priority_loop prec sub prios (descendOf prec sub prios fuel)
          pesos criterios criterios acc := by
  cases fuel <;> rfl

theorem randon_none_of_gt15 (n : ℕ) (h : 15 < n) :
    lookupL randon_consist_index n = none := by
  simp only [randon_consist_index, lookupL]
  iterate 13 rw [if_neg (by omega)]

/-- C5: for every square matrix of order at most 2, `consistencia` returns
exactly the triple (0, 0, 0) regardless of the matrix contents (the
eigenvalue parameter); for order n with 2 < n ≤ 15 it returns lambda_max, CI =
(lambda_max - n)/(n - 1) and CR = CI / RI(n) with RI(n) taken from the fixed
Random Index table. -/
theorem claim_C5 (lam : ℚ) (n : ℕ) :
    (n ≤ 2 → consistencia lam n n = some (0, 0, 0))
    ∧ (2 < n → n ≤ 15 →
      ∃ ri, lookupL randon_consist_index n = some ri
        ∧ consistencia lam n n
          = some (lam, (lam - (n : ℚ)) / ((n : ℚ) - 1),
              ((lam - (n : ℚ)) / ((n : ℚ) - 1)) / ri)) := by
  constructor
  · intro h
    unfold consistencia
    rw [if_neg]
    omega
  · intro h2 h15
    unfold consistencia
    rw [if_pos (by omega)]
    interval_cases n <;> exact ⟨_, rfl, rfl⟩

/-- Witness for C5 at concrete inputs: a 2×2 matrix gives (0,0,0) and a 4×4
matrix with dominant eigenvalue 9 gives the CI/CR formulas with RI(4). -/
theorem claim_C5_witness :
    consistencia 7 2 2 = some (0, 0, 0)
    ∧ ∃ ri, lookupL randon_consist_index 4 = some ri
      ∧ consistencia 9 4 4
        = some (9, (9 - (4 : ℚ)) / ((4 : ℚ) - 1), ((9 - (4 : ℚ)) / ((4 : ℚ) - 1)) / ri) :=
  ⟨(claim_C5 7 2).1 (by norm_num), by
    have h := (claim_C5 9 4).2 (by norm_num) (by norm_num)
    exact_mod_cast h⟩

/-- C6: for every square matrix of order strictly greater than 15,
`consistencia` fails with a lookup error (the Random Index table has no entry,
modelled by `none`), whatever eigenvalue the eigensolver would report. -/
theorem claim_C6 (lam : ℚ) (n : ℕ) (h : 15 < n) : consistencia lam n n = none := by
  unfold consistencia
  rw [if_pos (by omega), randon_none_of_gt15 n h]

/-- Witness for C6 at order 16. -/
theorem claim_C6_witness : consistencia 17 16 16 = none :=
  claim_C6 17 16 (by norm_num)

/-- C3 counterexample: the claim states that for an unrecognized method the
code falls back to the power-iteration method exactly when the matrix has at
least 2 rows AND at least 2 columns, and to the normalized-column mean
otherwise.  A 1-row, 2-column matrix falsifies the "otherwise" direction: the
code's test `matriz.shape[0] and matriz.shape[1] >= 2` only requires a nonzero
row count, so the power-iteration method is selected even though the matrix
does not have at least 2 rows. -/
theorem claim_C3_counterexample : selectPV "autovetor" 1 2 = PVKind.autovalor := by decide

/-- C3 (amended): for an unrecognized method the code selects the
power-iteration method iff the matrix has a nonzero number of rows and at
least 2 columns, and the normalized-column mean otherwise; restricted to
square matrices this is exactly "order at least 2", and a 1×1 matrix always
uses the normalized-column mean. -/
theorem claim_C3 (metodo : String) (rows cols : ℕ)
    (ha : metodo ≠ "aproximado") (hg : metodo ≠ "geometrico") :
    (selectPV metodo rows cols = PVKind.autovalor ↔ (rows ≠ 0 ∧ 2 ≤ cols))
    ∧ (rows = 0 ∨ cols < 2 → selectPV metodo rows cols = PVKind.aproximado)
    ∧ (selectPV metodo cols cols = PVKind.autovalor ↔ 2 ≤ cols)
    ∧ selectPV metodo 1 1 = PVKind.aproximado := by
  unfold selectPV
  rw [if_neg ha, if_neg hg, if_neg ha, if_neg hg, if_neg ha, if_neg hg]
  refine ⟨?_, ?_, ?_, ?_⟩
  · by_cases h : rows ≠ 0 ∧ 2 ≤ cols
    · simp [h]
    · simp only [if_neg h]
      constructor
      · intro hc; cases hc
      · intro hc; exact absurd hc h
  · intro h
    rw [if_neg (by omega)]
  · by_cases h : cols ≠ 0 ∧ 2 ≤ cols
    · rw [if_pos h]
      simp only [true_iff]
      omega
    · rw [if_neg h]
      constructor
      · intro hc; cases hc
      · intro hc; exact absurd ⟨by omega, hc⟩ h
  · rw [if_neg (by omega)]

/-- Witness for C3 at a concrete unrecognized method and shape. -/
theorem claim_C3_witness :
    (selectPV "autovetor" 3 3 = PVKind.autovalor ↔ ((3 : ℕ) ≠ 0 ∧ 2 ≤ 3))
    ∧ ((3 : ℕ) = 0 ∨ (3 : ℕ) < 2 → selectPV "autovetor" 3 3 = PVKind.aproximado)
    ∧ (selectPV "autovetor" 3 3 = PVKind.autovalor ↔ 2 ≤ 3)
    ∧ selectPV "autovetor" 1 1 = PVKind.aproximado :=
  claim_C3 "autovetor" 3 3 (by decide) (by decide)

theorem numCols_eq_of_wf {α : Type} {m : List (List α)} {rows cols : ℕ}
    (hw : wfMat m rows cols) (hr : rows ≠ 0) : numCols m = cols := by
  obtain ⟨hlen, hrow⟩ := hw
  cases m with
  | nil => simp at hlen; omega
  | cons r0 rest =>
    simpa [numCols] using hrow r0 (by simp)

theorem isSquareL_iff {m : List (List ℚ)} {rows cols : ℕ}
    (hw : wfMat m rows cols) (hr : rows ≠ 0) : (isSquareL m = true) ↔ cols = rows := by
  obtain ⟨hlen, hrow⟩ := hw
  simp only [isSquareL, List.all_eq_true, decide_eq_true_eq]
  constructor
  · intro h
    cases m with
    | nil => simp at hlen; omega
    | cons r0 rest =>
      have := h r0 (by simp)
      have := hrow r0 (by simp)
      omega
  · intro h r hrm
    rw [hrow r hrm, hlen, h]

theorem matMulL_length (a b : List (List ℚ)) : (matMulL a b).length = a.length := by
  simp [matMulL]

theorem numCols_eq_length_of_square {m : List (List ℚ)} (hsq : isSquareL m = true) :
    numCols m = m.length := by
  cases m with
  | nil => simp [numCols]
  | cons r0 rest =>
    simp only [isSquareL, List.all_eq_true, decide_eq_true_eq] at hsq
    simpa [numCols] using hsq r0 (by simp)

theorem isSquareL_matSq {m : List (List ℚ)} (hsq : isSquareL m = true) :
    isSquareL (matSq m) = true := by
  have hnc := numCols_eq_length_of_square hsq
  simp only [isSquareL, List.all_eq_true, decide_eq_true_eq, matSq, matMulL, List.mem_map,
    List.length_map]
  rintro r ⟨r0, hr0, rfl⟩
  simp [hnc]

theorem matSq_length (m : List (List ℚ)) : (matSq m).length = m.length :=
  matMulL_length m m

theorem autovalor_unfold (p fuel : ℕ) (m : List (List ℚ)) (ant : Option (List ℚ)) :
    autovalor p fuel m ant
      = if isSquareL m then
          (if autovalorDifZero p m ant then
            some ((((matSq m).map List.sum).map
              (fun x => x / ((matSq m).map List.sum).sum)).map (npRound p))
          else
            match fuel with
            | n + 2 => autovalor p (n + 1) (matSq m)
                (some (((matSq m).map List.sum).map
                  (fun x => x / ((matSq m).map List.sum).sum)))
            | _ => some ((((matSq m).map List.sum).map
                (fun x => x / ((matSq m).map List.sum).sum)).map (npRound p)))
        else none := by
  match fuel with
  | 0 => rfl
  | 1 => rfl
  | n + 2 => rfl

theorem autovalor_isSome_of_square (p : ℕ) :
    ∀ (fuel : ℕ) (m : List (List ℚ)) (ant : Option (List ℚ)), isSquareL m = true →
    ∃ v, autovalor p fuel m ant = some v := by
  intro fuel
  induction fuel using Nat.strong_induction_on with
  | _ fuel ih =>
    intro m ant hsq
    rw [autovalor_unfold, if_pos hsq]
    by_cases hd : autovalorDifZero p m ant = true
    · rw [if_pos hd]
      exact ⟨_, rfl⟩
    · rw [if_neg hd]
      match fuel with
      | 0 => exact ⟨_, rfl⟩
      | 1 => exact ⟨_, rfl⟩
      | n + 2 => exact ih (n + 1) (by omega) (matSq m) _ (isSquareL_matSq hsq)

section RatKernelComputable

attribute [local semireducible] Rat.add Rat.mul Rat.inv Rat.sub

/-- C2 counterexample: the claim says every one of the three priority-vector
methods fails with a dimension error on every non-square matrix.  On the
non-square 2×3 matrix [[1,2,3],[4,5,6]] the normalized-column-mean method
raises nothing and returns a well-defined vector (numpy's broadcast division
works for any rectangular shape); only the power-iteration method fails
(`matrix_power` raises `LinAlgError`, modelled by `none`). -/
theorem claim_C2_counterexample :
    aproximado ([[1, 2, 3], [4, 5, 6]] : List (List ℚ)) 2 = [27/100, 73/100]
    ∧ autovalor 2 100 ([[1, 2, 3], [4, 5, 6]] : List (List ℚ)) none = none := by
  constructor
  · decide
  · decide

end RatKernelComputable

/-- C2 (amended): of the three priority-vector methods only the
power-iteration one performs a squareness check: on a rectangular matrix with
at least one row it fails with a dimension error exactly when the number of
columns differs from the number of rows, while the normalized-column-mean and
geometric-mean methods raise no dimension error and return one entry per row
for any rectangular matrix. -/
theorem claim_C2 (m : List (List ℚ)) (p fuel rows cols : ℕ)
    (hw : wfMat m rows cols) (hr : rows ≠ 0) :
    ((autovalor p fuel m none = none) ↔ cols ≠ rows)
    ∧ (aproximado m p).length = rows
    ∧ ∀ mr : List (List ℝ), (geometrico mr p).length = mr.length := by
  refine ⟨?_, ?_, ?_⟩
  · constructor
    · intro hnone hcols
      have hsq : isSquareL m = true := (isSquareL_iff hw hr).2 hcols
      obtain ⟨v, hv⟩ := autovalor_isSome_of_square p fuel m none hsq
      rw [hv] at hnone
      cases hnone
    · intro hne
      have hsq : isSquareL m = false := by
        by_contra h
        have := (isSquareL_iff hw hr).1 (by revert h; cases isSquareL m <;> simp)
        exact hne this
      rw [autovalor_unfold, hsq]
      simp
  · have hlen := hw.1
    simp [aproximado, hlen]
  · intro mr
    simp [geometrico]

/-- Witness for C2 on the 2×3 matrix: the power-iteration method errors and
the other two produce per-row output. -/
theorem claim_C2_witness :
    ((autovalor 2 7 ([[1, 2, 3], [4, 5, 6]] : List (List ℚ)) none = none) ↔ (3 : ℕ) ≠ 2)
    ∧ (aproximado ([[1, 2, 3], [4, 5, 6]] : List (List ℚ)) 2).length = 2
    ∧ ∀ mr : List (List ℝ), (geometrico mr 2).length = mr.length :=
  claim_C2 [[1, 2, 3], [4, 5, 6]] 2 7 2 3 (by constructor <;> simp) (by decide)

/-- C10: the inherited weight of a node is the `pesos` entry at the index of
the node's FIRST occurrence in the `criterios` list (Python `list.index`).
For a duplicate-free criteria list this is exactly index-for-index matching;
when an identifier occurs twice, both occurrences are processed and both are
multiplied by the weight stored at the first occurrence's position (the
weight at the later position is never consulted). -/
theorem claim_C10 :
    (∀ (pesos : List ℚ) (criterios : List String) (i : ℕ) (hi : i < criterios.length),
      criterios.Nodup → pesoSel pesos criterios criterios[i] = pesos.get? i)
    ∧ ∀ (prec fuel : ℕ) (a : String) (w1 w2 : ℚ) (v : List ℚ) (acc : List (List ℚ)),
      global_priority_vector prec [] [(a, v)] fuel [w1, w2] [a, a] acc
        = Res.ok (acc ++ [v.map (fun x => npRound prec (w1 * x)),
            v.map (fun x => npRound prec (w1 * x))]) := by
  constructor
  · intro pesos criterios i hi hnd
    unfold pesoSel
    rw [List.indexOf_getElem hnd i hi]
  · intro prec fuel a w1 w2 v acc
    cases fuel <;>
      simp [global_priority_vector, global_priority_loop, pesoSel, lookupL,
        List.indexOf_cons_self]

/-- Witness for C10 at concrete inputs: with distinct names ["p","q"] the
second criterion takes the second weight; with the duplicated list ["a","a"]
both occurrences are scaled by the first weight 2 (the second weight 3 is
ignored). -/
theorem claim_C10_witness :
    pesoSel [3, 4] ["p", "q"] (["p", "q"][1]) = some 4
    ∧ global_priority_vector 0 [] [("a", [5])] 1 [2, 3] ["a", "a"] []
      = Res.ok ([] ++ [[5].map (fun x => npRound 0 (2 * x)),
          [5].map (fun x => npRound 0 (2 * x))]) :=
  ⟨by rw [claim_C10.1 [3, 4] ["p", "q"] 1 (by norm_num) (by decide)]; rfl,
   claim_C10.2 0 1 "a" 2 3 [5] []⟩

section RatKernelComputableB

attribute [local semireducible] Rat.add Rat.mul Rat.inv Rat.sub

/-- C1: evidence for the accumulator bug.  `prioridades_globais` is created in
`AHP.__init__` (line 36) and `resultado` never resets it, so on the concrete
engine (method "aproximado", precision 2, alternatives x,y, criteria c1,c2,
all matrices [[1,1],[1,1]]) the first `resultado()` call returns the ranking
x ↦ ½, y ↦ ½ leaving two contributions in the accumulator, and a second call
on the same instance — entered with that leftover state — returns x ↦ 1,
y ↦ 1, a different ranking.  This contradicts the claim (and the spec's
stated design requirement) that each invocation owns a fresh accumulator and
repeated calls return the same ranking. -/
theorem claim_C1_bug :
    resultado geoStub "aproximado" 2 3 ["x", "y"] ["c1", "c2"] [] exMats []
      = some ([("x", 1/2), ("y", 1/2)], [[1/4, 1/4], [1/4, 1/4]])
    ∧ resultado geoStub "aproximado" 2 3 ["x", "y"] ["c1", "c2"] [] exMats
        [[1/4, 1/4], [1/4, 1/4]]
      = some ([("x", 1), ("y", 1)], [[1/4, 1/4], [1/4, 1/4], [1/4, 1/4], [1/4, 1/4]])
    ∧ ([("x", (1 : ℚ)), ("y", 1)] : List (String × ℚ)) ≠ [("x", 1/2), ("y", 1/2)] := by
  refine ⟨by decide, by decide, by decide⟩

end RatKernelComputableB

theorem isSquareL_matIter {m : List (List ℚ)} (hsq : isSquareL m = true) :
    ∀ j, isSquareL (matIter m j) = true
  | 0 => hsq
  | j + 1 => isSquareL_matSq (isSquareL_matIter hsq j)

theorem matIter_length (m : List (List ℚ)) : ∀ j, (matIter m j).length = m.length
  | 0 => rfl
  | j + 1 => by rw [matIter, matSq_length, matIter_length m j]

theorem difZero_eq_convergedAt (p : ℕ) (m : List (List ℚ)) (j : ℕ) (ant : Option (List ℚ))
    (hant : ant.getD (List.replicate m.length 0) = estVec m j) :
    autovalorDifZero p (matIter m j) ant = convergedAt m p (j + 1) := by
  unfold autovalorDifZero convergedAt
  rw [matIter_length, hant]
  rfl

theorem autovalor_spec_aux (p : ℕ) (m : List (List ℚ)) (hsq : isSquareL m = true) :
    ∀ (fuel : ℕ) (j : ℕ) (ant : Option (List ℚ)), 1 ≤ fuel →
    ant.getD (List.replicate m.length 0) = estVec m j →
    autovalor p fuel (matIter m j) ant
      = some (match (List.range' (j + 1) fuel).find? (convergedAt m p) with
          | some k => (estVec m k).map (npRound p)
          | none => (estVec m (j + fuel)).map (npRound p)) := by
  intro fuel
  induction fuel with
  | zero => intro j ant h; omega
  | succ f ih =>
    intro j ant hf hant
    rw [autovalor_unfold, if_pos (isSquareL_matIter hsq j),
      difZero_eq_convergedAt p m j ant hant]
    by_cases hc : convergedAt m p (j + 1) = true
    · rw [if_pos hc, List.range'_succ, List.find?_cons_of_pos _ hc]
      rfl
    · rw [if_neg hc, List.range'_succ, List.find?_cons_of_neg _ hc]
      match f with
      | 0 =>
        simp only [List.range', List.find?_nil]
        rfl
      | f2 + 1 =>
        have rec1 : autovalor p (f2 + 1) (matIter m (j + 1)) (some (estVec m (j + 1)))
            = some (match (List.range' (j + 2) (f2 + 1)).find? (convergedAt m p) with
                | some k => (estVec m k).map (npRound p)
                | none => (estVec m ((j + 1) + (f2 + 1))).map (npRound p)) :=
          ih (j + 1) (some (estVec m (j + 1))) (by omega) rfl
        have harith : (j + 1) + (f2 + 1) = j + (f2 + 1 + 1) := by omega
        rw [harith] at rec1
        exact rec1

/-- C7: the power-iteration method compares each candidate estimate against
the previous one — the zero vector on the first step — and returns the current
estimate rounded to `precisao` as soon as the rounded difference is all-zero;
if the iteration budget (`interacao`, default 100) is exhausted without such
convergence it returns the last computed estimate rounded to `precisao`.
Stated as a refinement: on any square matrix and any positive budget the
source recursion `autovalor` computes exactly the spec-side `specAutovalor`,
which returns the first-converging element of the estimate sequence and the
step-`fuel` estimate when no step in `1..fuel` converges. -/
theorem claim_C7 (p fuel : ℕ) (m : List (List ℚ))
    (hsq : isSquareL m = true) (hf : 1 ≤ fuel) :
    autovalor p fuel m none = some (specAutovalor m p fuel) := by
  have h := autovalor_spec_aux p m hsq fuel 0 none hf rfl
  unfold specAutovalor
  simpa using h

/-- Witness for C7: the default budget 100 on the concrete square matrix
[[1,2],[1/2,1]]. -/
theorem claim_C7_witness :
    autovalor 4 100 ([[1, 2], [1/2, 1]] : List (List ℚ)) none
      = some (specAutovalor [[1, 2], [1/2, 1]] 4 100) :=
  claim_C7 4 100 [[1, 2], [1/2, 1]] (by decide) (by norm_num)

theorem colSums_length {α : Type} [AddCommMonoid α] (m : List (List α)) :
    (colSums m).length = numCols m := by
  simp [colSums]

theorem colSums_getD {m : List (List ℚ)} {j : ℕ} (hj : j < numCols m) :
    (colSums m).getD j 0 = (m.map (fun r => r.getD j 0)).sum := by
  unfold colSums
  rw [getD_range_map _ hj]

theorem col_entries_pos {m : List (List ℚ)} {n j : ℕ} (hw : wfMat m n n)
    (hpos : posMat m) (hj : j < n) :
    ∀ x ∈ m.map (fun r => r.getD j 0), 0 < x := by
  intro x hx
  obtain ⟨r, hr, rfl⟩ := List.mem_map.1 hx
  have hrl : r.length = n := hw.2 r hr
  have hjr : j < r.length := by omega
  rw [List.getD_eq_getElem r 0 hjr]
  exact hpos r hr _ (List.getElem_mem hjr)

theorem colSums_getD_pos {m : List (List ℚ)} {n j : ℕ} (hw : wfMat m n n)
    (hn : 1 ≤ n) (hpos : posMat m) (hj : j < n) : 0 < (colSums m).getD j 0 := by
  have hnc : numCols m = n := numCols_eq_of_wf hw (by omega)
  rw [colSums_getD (by omega)]
  apply List.sum_pos _ (col_entries_pos hw hpos hj)
  have : m.length = n := hw.1
  intro hemp
  rw [List.map_eq_nil_iff] at hemp
  subst hemp
  simp at this
  omega

theorem aproximado_preround_sum {m : List (List ℚ)} {n : ℕ} (hw : wfMat m n n)
    (hn : 1 ≤ n) (hpos : posMat m) :
    ((m.map (fun r => List.zipWith (fun a b => a / b) r (colSums m))).map
      (fun r => r.sum / (r.length : ℚ))).sum = 1 := by
  have hnc : numCols m = n := numCols_eq_of_wf hw (by omega)
  have hcsl : (colSums m).length = n := by rw [colSums_length, hnc]
  rw [List.map_map]
  have hcongr : ∀ r ∈ m,
      ((fun r => r.sum / (r.length : ℚ)) ∘ fun r => List.zipWith (fun a b => a / b) r (colSums m)) r
        = (∑ j in Finset.range n, r.getD j 0 / (colSums m).getD j 0) / (n : ℚ) := by
    intro r hr
    have hrl : r.length = n := hw.2 r hr
    have hzl : (List.zipWith (fun a b => a / b) r (colSums m)).length = n := by
      rw [List.length_zipWith, hrl, hcsl]
      omega
    simp only [Function.comp_apply, hzl]
    rw [zipWith_sum_range (fun a b => a / b) n r (colSums m) hrl hcsl]
  rw [List.map_congr_left hcongr]
  have hstep : m.map (fun r => (∑ j in Finset.range n, r.getD j 0 / (colSums m).getD j 0) / (n : ℚ))
      = (m.map (fun r => ∑ j in Finset.range n, r.getD j 0 / (colSums m).getD j 0)).map
          (fun x => x / (n : ℚ)) := by
    rw [List.map_map]
    rfl
  rw [hstep, sum_map_div, sum_map_swap]
  have hinner : ∀ j ∈ Finset.range n,
      (m.map (fun r => r.getD j 0 / (colSums m).getD j 0)).sum = 1 := by
    intro j hj
    rw [Finset.mem_range] at hj
    have hstep2 : m.map (fun r => r.getD j 0 / (colSums m).getD j 0)
        = (m.map (fun r => r.getD j 0)).map (fun x => x / (colSums m).getD j 0) := by
      rw [List.map_map]
      rfl
    rw [hstep2, sum_map_div, ← colSums_getD (by omega : j < numCols m)]
    exact div_self (ne_of_gt (colSums_getD_pos hw hn hpos hj))
  rw [Finset.sum_congr rfl hinner]
  simp only [Finset.sum_const, Finset.card_range, nsmul_eq_mul, mul_one]
  have hne : (n : ℚ) ≠ 0 := by exact_mod_cast (by omega : n ≠ 0)
  exact div_self hne

theorem zipWith_mul_getD_pos {j : ℕ} :
    ∀ (r : List ℚ) (b : List (List ℚ)), (∀ x ∈ r, 0 < x) →
    (∀ br ∈ b, j < br.length ∧ ∀ y ∈ br, 0 < y) →
    ∀ z ∈ List.zipWith (fun x br => x * br.getD j 0) r b, 0 < z := by
  intro r
  induction r with
  | nil => intro b _ _ z hz; simp at hz
  | cons x rs ih =>
    intro b hr hb z hz
    cases b with
    | nil => simp at hz
    | cons br bs =>
      simp only [List.zipWith_cons_cons, List.mem_cons] at hz
      rcases hz with rfl | hz
      · have hx : 0 < x := hr x (by simp)
        obtain ⟨hjl, hby⟩ := hb br (by simp)
        have : 0 < br.getD j 0 := by
          rw [List.getD_eq_getElem br 0 hjl]
          exact hby _ (List.getElem_mem hjl)
        exact mul_pos hx this
      · exact ih bs (fun y hy => hr y (by simp [hy]))
          (fun b2 hb2 => hb (by exact b2) (by simp [hb2])) z hz

theorem matSq_wf_pos {m : List (List ℚ)} {n : ℕ} (hw : wfMat m n n)
    (hn : 1 ≤ n) (hpos : posMat m) :
    wfMat (matSq m) n n ∧ posMat (matSq m) := by
  have hnc : numCols m = n := numCols_eq_of_wf hw (by omega)
  constructor
  · constructor
    · rw [matSq_length, hw.1]
    · intro r hr
      unfold matSq matMulL at hr
      obtain ⟨r0, hr0, rfl⟩ := List.mem_map.1 hr
      simp [hnc]
  · intro r hr z hz
    unfold matSq matMulL at hr
    obtain ⟨r0, hr0, rfl⟩ := List.mem_map.1 hr
    rw [List.mem_map] at hz
    obtain ⟨j, hj, rfl⟩ := hz
    rw [List.mem_range, hnc] at hj
    apply List.sum_pos
    · exact zipWith_mul_getD_pos r0 m (hpos r0 hr0)
        (fun br hbr => ⟨by rw [hw.2 br hbr]; omega, hpos br hbr⟩)
    · have : (List.zipWith (fun x br => x * br.getD j 0) r0 m).length = n := by
        rw [List.length_zipWith, hw.2 r0 hr0, hw.1]
        omega
      intro hemp
      rw [hemp] at this
      simp at this
      omega

theorem autovalor_sum_bound (p : ℕ) :
    ∀ (fuel : ℕ) (m : List (List ℚ)) (ant : Option (List ℚ)) (n : ℕ) (v : List ℚ),
    wfMat m n n → 1 ≤ n → posMat m → autovalor p fuel m ant = some v →
    |v.sum - 1| ≤ (n : ℚ) * tol ℚ p := by
  intro fuel
  induction fuel using Nat.strong_induction_on with
  | _ fuel ih =>
    intro m ant n v hw hn hpos hv
    have hsq : isSquareL m = true := (isSquareL_iff hw (by omega)).2 rfl
    obtain ⟨hw2, hpos2⟩ := matSq_wf_pos hw hn hpos
    have hsl_len : ((matSq m).map List.sum).length = n := by
      rw [List.length_map, hw2.1]
    have hsl_pos : ∀ x ∈ (matSq m).map List.sum, 0 < x := by
      intro x hx
      obtain ⟨r, hr, rfl⟩ := List.mem_map.1 hx
      apply List.sum_pos r (hpos2 r hr)
      have := hw2.2 r hr
      intro hemp
      rw [hemp] at this
      simp at this
      omega
    have hsc_pos : 0 < ((matSq m).map List.sum).sum := by
      apply List.sum_pos _ hsl_pos
      intro hemp
      rw [hemp] at hsl_len
      simp at hsl_len
      omega
    have hatual_sum : (((matSq m).map List.sum).map
        (fun x => x / ((matSq m).map List.sum).sum)).sum = 1 := by
      rw [sum_map_div]
      exact div_self (ne_of_gt hsc_pos)
    have hatual_len : (((matSq m).map List.sum).map
        (fun x => x / ((matSq m).map List.sum).sum)).length = n := by
      rw [List.length_map, hsl_len]
    have hround : ∀ w, w = (((matSq m).map List.sum).map
          (fun x => x / ((matSq m).map List.sum).sum)).map (npRound p) →
        |w.sum - 1| ≤ (n : ℚ) * tol ℚ p := by
      intro w hwdef
      subst hwdef
      have := abs_sum_map_npRound_sub p (((matSq m).map List.sum).map
        (fun x => x / ((matSq m).map List.sum).sum))
      rw [hatual_sum, hatual_len] at this
      exact this
    rw [autovalor_unfold, if_pos hsq] at hv
    by_cases hd : autovalorDifZero p m ant = true
    · rw [if_pos hd] at hv
      exact hround v (Option.some_injective _ hv.symm)
    · rw [if_neg hd] at hv
      match fuel, hv with
      | 0, hv => exact hround v (Option.some_injective _ hv.symm)
      | 1, hv => exact hround v (Option.some_injective _ hv.symm)
      | n2 + 2, hv =>
        exact ih (n2 + 1) (by omega) (matSq m) _ n v hw2 hn hpos2 hv

theorem geometrico_sum_bound {m : List (List ℚ)} {n : ℕ} (p : ℕ) (hw : wfMat m n n)
    (hn : 1 ≤ n) (hpos : posMat m) :
    |(geometrico (castMat m) p).sum - 1| ≤ (n : ℝ) * tol ℝ p := by
  have hglen : (castMat m).length = n := by
    rw [castMat, List.length_map, hw.1]
  have hmg_pos : ∀ x ∈ (castMat m).map
      (fun linha => linha.prod ^ ((1 : ℝ) / (linha.length : ℝ))), 0 < x := by
    intro x hx
    rw [castMat, List.map_map] at hx
    obtain ⟨r, hr, rfl⟩ := List.mem_map.1 hx
    apply Real.rpow_pos_of_pos
    apply List.prod_pos
    intro y hy
    simp only [Function.comp_apply] at hy
    obtain ⟨q, hq, rfl⟩ := List.mem_map.1 hy
    exact_mod_cast hpos r hr q hq
  have hmg_len : ((castMat m).map
      (fun linha => linha.prod ^ ((1 : ℝ) / (linha.length : ℝ)))).length = n := by
    rw [List.length_map, hglen]
  have hS_pos : 0 < ((castMat m).map
      (fun linha => linha.prod ^ ((1 : ℝ) / (linha.length : ℝ)))).sum := by
    apply List.sum_pos _ hmg_pos
    intro hemp
    rw [hemp] at hmg_len
    simp at hmg_len
    omega
  have hpre : (((castMat m).map
      (fun linha => linha.prod ^ ((1 : ℝ) / (linha.length : ℝ)))).map
        (fun x => x / ((castMat m).map
          (fun linha => linha.prod ^ ((1 : ℝ) / (linha.length : ℝ)))).sum)).sum = 1 := by
    rw [sum_map_div]
    exact div_self (ne_of_gt hS_pos)
  have hpre_len : (((castMat m).map
      (fun linha => linha.prod ^ ((1 : ℝ) / (linha.length : ℝ)))).map
        (fun x => x / ((castMat m).map
          (fun linha => linha.prod ^ ((1 : ℝ) / (linha.length : ℝ)))).sum)).length = n := by
    rw [List.length_map, hmg_len]
  have hb := abs_sum_map_npRound_sub p (((castMat m).map
    (fun linha => linha.prod ^ ((1 : ℝ) / (linha.length : ℝ)))).map
      (fun x => x / ((castMat m).map
        (fun linha => linha.prod ^ ((1 : ℝ) / (linha.length : ℝ)))).sum))
  rw [hpre, hpre_len] at hb
  exact hb

/-- C4: on every valid reciprocal pairwise comparison matrix (square of order
n ≥ 1, positive entries, entry(i,j)·entry(j,i) = 1, unit diagonal) and for
every precision, each of the three priority-vector methods returns a vector
whose entries sum to 1 within the rounding tolerance implied by the precision:
the pre-rounding vector sums to exactly 1 and each of the n entries is
perturbed by at most half an ulp, so the sum differs from 1 by at most
n · tol(precisao). -/
theorem claim_C4 (m : List (List ℚ)) (n p fuel : ℕ)
    (hw : wfMat m n n) (hn : 1 ≤ n) (hpos : posMat m)
    (hrec : recipMat m n) (hdiag : diagOne m n) :
    |(aproximado m p).sum - 1| ≤ (n : ℚ) * tol ℚ p
    ∧ (∀ v, autovalor p fuel m none = some v → |v.sum - 1| ≤ (n : ℚ) * tol ℚ p)
    ∧ |(geometrico (castMat m) p).sum - 1| ≤ (n : ℝ) * tol ℝ p := by
  refine ⟨?_, ?_, geometrico_sum_bound p hw hn hpos⟩
  · have hdef : aproximado m p
        = ((m.map (fun r => List.zipWith (fun a b => a / b) r (colSums m))).map
            (fun r => r.sum / (r.length : ℚ))).map (npRound p) := rfl
    have hb := abs_sum_map_npRound_sub p
      ((m.map (fun r => List.zipWith (fun a b => a / b) r (colSums m))).map
        (fun r => r.sum / (r.length : ℚ)))
    rw [aproximado_preround_sum hw hn hpos] at hb
    have hlen : ((m.map (fun r => List.zipWith (fun a b => a / b) r (colSums m))).map
        (fun r => r.sum / (r.length : ℚ))).length = n := by
      rw [List.length_map, List.length_map, hw.1]
    rw [hlen] at hb
    rw [hdef]
    exact hb
  · intro v hv
    exact autovalor_sum_bound p fuel m none n v hw hn hpos hv

section RatKernelComputableC

attribute [local semireducible] Rat.add Rat.mul Rat.inv Rat.sub

/-- Witness for C4 on the concrete reciprocal matrix [[1,2],[1/2,1]] at
precision 3 with budget 7. -/
theorem claim_C4_witness :
    |(aproximado ([[1, 2], [1/2, 1]] : List (List ℚ)) 3).sum - 1| ≤ (2 : ℚ) * tol ℚ 3
    ∧ (∀ v, autovalor 3 7 ([[1, 2], [1/2, 1]] : List (List ℚ)) none = some v →
        |v.sum - 1| ≤ (2 : ℚ) * tol ℚ 3)
    ∧ |(geometrico (castMat [[1, 2], [1/2, 1]]) 3).sum - 1| ≤ (2 : ℝ) * tol ℝ 3 := by
  have h := claim_C4 [[1, 2], [1/2, 1]] 2 3 7 (by constructor <;> decide) (by norm_num)
    (by unfold posMat; decide) (by unfold recipMat; decide) (by unfold diagOne; decide)
  exact_mod_cast h

end RatKernelComputableC

theorem descendOf_succ_eq (prec : ℕ) (sub : List (String × List String))
    (prios : List (String × List ℚ)) (f : ℕ) (pg : List ℚ) (ch : List String)
    (a : List (List ℚ)) :
    descendOf prec sub prios (f + 1) pg ch a
      = global_priority_loop prec sub prios (descendOf prec sub prios f) pg ch ch a := by
  show global_priority_vector prec sub prios f pg ch a = _
  exact gpv_eq_loop prec sub prios f pg ch a

theorem gpv_fuel_stable (prec : ℕ) (sub : List (String × List String))
    (prios : List (String × List ℚ)) :
    ∀ (f0 : ℕ) (nodes : List String) (d : ℕ),
    hierarchy_depth sub f0 nodes = some d →
    ∀ (f1 f2 : ℕ), d ≤ f1 → d ≤ f2 →
    ∀ (pesos : List ℚ) (criterios : List String) (acc : List (List ℚ)),
    (global_priority_loop prec sub prios (descendOf prec sub prios f1) pesos criterios nodes acc
      = global_priority_loop prec sub prios (descendOf prec sub prios f2) pesos criterios nodes acc)
    ∧ global_priority_loop prec sub prios (descendOf prec sub prios f1) pesos criterios nodes acc
      ≠ Res.fuelOut := by
  intro f0
  induction f0 with
  | zero =>
    intro nodes
    induction nodes with
    | nil =>
      intro d h f1 f2 h1 h2 pesos criterios acc
      exact ⟨rfl, by simp [global_priority_loop]⟩
    | cons c rest ihr =>
      intro d h f1 f2 h1 h2 pesos criterios acc
      simp only [hierarchy_depth] at h
      rw [hierarchy_depth_loop] at h
      split at h
      · cases h
      · rename_i dr hrest
        split at h
        · rename_i hsubc
          cases h
          cases hpeso : pesoSel pesos criterios c with
          | none =>
            refine ⟨?_, ?_⟩
            · simp only [global_priority_loop, hpeso]
            · simp only [global_priority_loop, hpeso]
              intro hcontra
              cases hcontra
          | some peso =>
            cases hploc : lookupL prios c with
            | none =>
              refine ⟨?_, ?_⟩
              · simp only [global_priority_loop, hpeso, hploc]
              · simp only [global_priority_loop, hpeso, hploc]
                intro hcontra
                cases hcontra
            | some pl =>
              have ihx := ihr d (by simpa [hierarchy_depth] using hrest) f1 f2 h1 h2
                pesos criterios (acc ++ [pl.map (fun x => npRound prec (peso * x))])
              refine ⟨?_, ?_⟩
              · simp only [global_priority_loop, hpeso, hploc, hsubc]
                exact ihx.1
              · simp only [global_priority_loop, hpeso, hploc, hsubc]
                exact ihx.2
        · rename_i ch hsubc
          cases h
  | succ f0p ihf =>
    intro nodes
    induction nodes with
    | nil =>
      intro d h f1 f2 h1 h2 pesos criterios acc
      exact ⟨rfl, by simp [global_priority_loop]⟩
    | cons c rest ihr =>
      intro d h f1 f2 h1 h2 pesos criterios acc
      simp only [hierarchy_depth] at h
      rw [hierarchy_depth_loop] at h
      split at h
      · cases h
      · rename_i dr hrest
        split at h
        · rename_i hsubc
          cases h
          cases hpeso : pesoSel pesos criterios c with
          | none =>
            refine ⟨?_, ?_⟩
            · simp only [global_priority_loop, hpeso]
            · simp only [global_priority_loop, hpeso]
              intro hcontra
              cases hcontra
          | some peso =>
            cases hploc : lookupL prios c with
            | none =>
              refine ⟨?_, ?_⟩
              · simp only [global_priority_loop, hpeso, hploc]
              · simp only [global_priority_loop, hpeso, hploc]
                intro hcontra
                cases hcontra
            | some pl =>
              have ihx := ihr d (by simpa [hierarchy_depth] using hrest) f1 f2 h1 h2
                pesos criterios (acc ++ [pl.map (fun x => npRound prec (peso * x))])
              refine ⟨?_, ?_⟩
              · simp only [global_priority_loop, hpeso, hploc, hsubc]
                exact ihx.1
              · simp only [global_priority_loop, hpeso, hploc, hsubc]
                exact ihx.2
        · rename_i ch hsubc
          split at h
          · cases h
          · rename_i dc hdc
            cases h
            obtain ⟨f1x, rfl⟩ : ∃ k, f1 = k + 1 := ⟨f1 - 1, by omega⟩
            obtain ⟨f2x, rfl⟩ : ∃ k, f2 = k + 1 := ⟨f2 - 1, by omega⟩
            cases hpeso : pesoSel pesos criterios c with
            | none =>
              refine ⟨?_, ?_⟩
              · simp only [global_priority_loop, hpeso]
              · simp only [global_priority_loop, hpeso]
                intro hcontra
                cases hcontra
            | some peso =>
              cases hploc : lookupL prios c with
              | none =>
                refine ⟨?_, ?_⟩
                · simp only [global_priority_loop, hpeso, hploc]
                · simp only [global_priority_loop, hpeso, hploc]
                  intro hcontra
                  cases hcontra
              | some pl =>
                have hdesc := ihf ch dc hdc f1x f2x (by omega) (by omega)
                  (pl.map (fun x => npRound prec (peso * x))) ch acc
                simp only [global_priority_loop, hpeso, hploc, hsubc, descendOf_succ_eq]
                rw [hdesc.1]
                cases hres : global_priority_loop prec sub prios (descendOf prec sub prios f2x)
                    (pl.map (fun x => npRound prec (peso * x))) ch ch acc with
                | ok acc2 =>
                  have ihx := ihr dr (by simpa [hierarchy_depth] using hrest) (f1x + 1) (f2x + 1)
                    (by omega) (by omega) pesos criterios acc2
                  exact ⟨ihx.1, ihx.2⟩
                | err =>
                  refine ⟨rfl, ?_⟩
                  intro hcontra
                  cases hcontra
                | fuelOut =>
                  exact absurd (hdesc.1.symm ▸ hres) hdesc.2

/-- C9: for every hierarchy definition whose reachable sub-criteria structure
is finite and acyclic — witnessed by `hierarchy_depth` returning some depth
`d` — the recursive aggregation terminates: a recursion budget equal to the
hierarchy depth never triggers the fuel-exhaustion marker, and any larger
budget computes exactly the same result, because each recursive call strictly
descends from a node to its children (one budget unit per level). -/
theorem claim_C9 (sub : List (String × List String)) (f0 d : ℕ) (roots : List String)
    (h : hierarchy_depth sub f0 roots = some d)
    (prec : ℕ) (prios : List (String × List ℚ)) (pesos : List ℚ)
    (acc : List (List ℚ)) (fuel : ℕ) (hfuel : d ≤ fuel) :
    (global_priority_vector prec sub prios fuel pesos roots acc
      = global_priority_vector prec sub prios d pesos roots acc)
    ∧ global_priority_vector prec sub prios d pesos roots acc ≠ Res.fuelOut := by
  rw [gpv_eq_loop, gpv_eq_loop]
  have h1 := gpv_fuel_stable prec sub prios f0 roots d h fuel d hfuel le_rfl pesos roots acc
  have h2 := gpv_fuel_stable prec sub prios f0 roots d h d d le_rfl le_rfl pesos roots acc
  exact ⟨h1.1, h2.2⟩

/-- Witness for C9 on a concrete two-level hierarchy of depth 1 (criterion c1
with children s1, s2, plus leaf criterion c2): budget 4 computes the same
result as budget 1, and budget 1 does not exhaust the fuel. -/
theorem claim_C9_witness :
    (global_priority_vector 2 [("c1", ["s1", "s2"])] [] 4 [] ["c1", "c2"] []
      = global_priority_vector 2 [("c1", ["s1", "s2"])] [] 1 [] ["c1", "c2"] [])
    ∧ global_priority_vector 2 [("c1", ["s1", "s2"])] [] 1 [] ["c1", "c2"] []
      ≠ Res.fuelOut :=
  claim_C9 [("c1", ["s1", "s2"])] 5 1 ["c1", "c2"] (by decide) 2 [] [] [] 4 (by norm_num)

theorem lookupL_mem {κ β : Type} [DecidableEq κ] :
    ∀ (l : List (κ × β)) (k : κ) (v : β), lookupL l k = some v → (k, v) ∈ l := by
  intro l
  induction l with
  | nil => intro k v h; cases h
  | cons ab rest ih =>
    intro k v h
    obtain ⟨a, b⟩ := ab
    rw [lookupL] at h
    by_cases hak : a = k
    · rw [if_pos hak] at h
      cases h
      subst hak
      simp
    · rw [if_neg hak] at h
      exact List.mem_cons_of_mem _ (ih k v h)

theorem hierOk_toP {sub : List (String × List String)} {prios : List (String × List ℚ)}
    {nAlts : ℕ} (h : hierOk sub prios nAlts = true) : hierOkP sub prios nAlts := by
  rw [hierOk, List.all_eq_true] at h
  intro kv hkv
  have hx := h kv hkv
  cases hc : lookupL sub kv.1 with
  | none =>
    rw [hc] at hx
    rw [Bool.and_eq_true, decide_eq_true_eq, decide_eq_true_eq] at hx
    refine ⟨hx.1, ?_, ?_⟩
    · intro ch hch
      cases hch
    · intro _
      exact hx.2
  | some ch =>
    rw [hc] at hx
    rw [Bool.and_eq_true, Bool.and_eq_true, decide_eq_true_eq, decide_eq_true_eq,
      decide_eq_true_eq] at hx
    refine ⟨hx.1, ?_, ?_⟩
    · intro ch2 hch2
      cases hch2
      exact hx.2
    · intro hnone
      cases hnone

theorem scale_round_sum {p : ℕ} (w : ℚ) (v : List ℚ) :
    |(v.map (fun x => npRound p (w * x))).sum - w * v.sum|
      ≤ (v.length : ℚ) * tol ℚ p := by
  have hmm : v.map (fun x => npRound p (w * x))
      = (v.map (fun x => w * x)).map (npRound p) := by
    rw [List.map_map]
    rfl
  have hb := abs_sum_map_npRound_sub p (v.map (fun x => w * x))
  rw [sum_map_mul_left_sum, List.length_map] at hb
  rw [hmm]
  exact hb

theorem massOf_append_single (acc : List (List ℚ)) (v : List ℚ) :
    massOf (acc ++ [v]) = massOf acc + v.sum := by
  simp [massOf]

theorem sumPesos_cons (pesos : List ℚ) (criterios : List String) (c : String)
    (rest : List String) :
    sumPesos pesos criterios (c :: rest)
      = (pesoSel pesos criterios c).getD 0 + sumPesos pesos criterios rest := by
  simp [sumPesos]

theorem sumPesos_self_of_nodup :
    ∀ (criterios : List String) (pesos : List ℚ), criterios.Nodup →
    pesos.length = criterios.length →
    sumPesos pesos criterios criterios = pesos.sum := by
  intro criterios
  induction criterios with
  | nil =>
    intro pesos _ hlen
    simp only [List.length_nil] at hlen
    rw [List.length_eq_zero] at hlen
    subst hlen
    rfl
  | cons c cs ih =>
    intro pesos hnd hlen
    match pesos with
    | p :: ps =>
      simp only [List.length_cons, Nat.succ_inj] at hlen
      rw [List.nodup_cons] at hnd
      rw [sumPesos_cons]
      have hhead : (pesoSel (p :: ps) (c :: cs) c).getD 0 = p := by
        unfold pesoSel
        rw [List.indexOf_cons_self]
        rfl
      have htail : sumPesos (p :: ps) (c :: cs) cs = sumPesos ps cs cs := by
        unfold sumPesos
        congr 1
        apply List.map_congr_left
        intro x hx
        have hxc : c ≠ x := fun hcx => hnd.1 (hcx ▸ hx)
        unfold pesoSel
        rw [List.indexOf_cons_ne _ hxc]
        rfl
      rw [hhead, htail, ih ps hnd.2 hlen, List.sum_cons]

theorem round_count_nil (sub : List (String × List String))
    (prios : List (String × List ℚ)) (fuel : ℕ) :
    round_count sub prios fuel [] = 0 := by
  cases fuel <;> rfl

theorem round_count_cons_leaf {sub : List (String × List String)}
    {prios : List (String × List ℚ)} {c : String} {pl : List ℚ}
    (hploc : lookupL prios c = some pl) (hsubc : lookupL sub c = none)
    (fuel : ℕ) (rest : List String) :
    round_count sub prios fuel (c :: rest) = pl.length + round_count sub prios fuel rest := by
  cases fuel <;> simp [round_count, round_count_loop, hploc, hsubc]

theorem round_count_cons_internal {sub : List (String × List String)}
    {prios : List (String × List ℚ)} {c : String} {pl : List ℚ} {ch : List String}
    (hploc : lookupL prios c = some pl) (hsubc : lookupL sub c = some ch)
    (f : ℕ) (rest : List String) :
    round_count sub prios (f + 1) (c :: rest)
      = pl.length + round_count sub prios f ch + round_count sub prios (f + 1) rest := by
  simp [round_count, round_count_loop, hploc, hsubc]

theorem gpv_mass_bound (prec : ℕ) (sub : List (String × List String))
    (prios : List (String × List ℚ)) (nAlts : ℕ) (hok : hierOkP sub prios nAlts) :
    ∀ (fuel : ℕ) (rest : List String) (pesos : List ℚ) (criterios : List String)
      (acc acc2 : List (List ℚ)),
    global_priority_loop prec sub prios (descendOf prec sub prios fuel) pesos criterios rest acc
      = Res.ok acc2 →
    (|massOf acc2 - massOf acc - sumPesos pesos criterios rest|
      ≤ tol ℚ prec * (round_count sub prios fuel rest : ℚ))
    ∧ ∀ v ∈ acc2, v ∈ acc ∨ v.length = nAlts := by
  intro fuel
  induction fuel with
  | zero =>
    intro rest
    induction rest with
    | nil =>
      intro pesos criterios acc acc2 hrun
      rw [global_priority_loop] at hrun
      cases hrun
      refine ⟨?_, fun v hv => Or.inl hv⟩
      simp only [sumPesos, List.map_nil, List.sum_nil, round_count_nil]
      simp
    | cons c rest ihr =>
      intro pesos criterios acc acc2 hrun
      rw [global_priority_loop] at hrun
      cases hpeso : pesoSel pesos criterios c with
      | none => rw [hpeso] at hrun; cases hrun
      | some peso =>
        rw [hpeso] at hrun
        cases hploc : lookupL prios c with
        | none => rw [hploc] at hrun; cases hrun
        | some pl =>
          rw [hploc] at hrun
          have hfacts := hok (c, pl) (lookupL_mem prios c pl hploc)
          cases hsubc : lookupL sub c with
          | some ch =>
            rw [hsubc] at hrun
            simp only [descendOf] at hrun
            cases hrun
          | none =>
            rw [hsubc] at hrun
            simp only at hrun
            have ihx := ihr pesos criterios
              (acc ++ [pl.map (fun x => npRound prec (peso * x))]) acc2 hrun
            have hpgsum : |(pl.map (fun x => npRound prec (peso * x))).sum - peso|
                ≤ (pl.length : ℚ) * tol ℚ prec := by
              have := scale_round_sum (p := prec) peso pl
              rw [hfacts.1, mul_one] at this
              exact this
            refine ⟨?_, ?_⟩
            · have h1 := ihx.1
              rw [massOf_append_single] at h1
              rw [sumPesos_cons, hpeso, round_count_cons_leaf hploc hsubc]
              have key : massOf acc2 - massOf acc
                  - ((some peso).getD 0 + sumPesos pesos criterios rest)
                  = (massOf acc2
                      - (massOf acc + (pl.map (fun x => npRound prec (peso * x))).sum)
                      - sumPesos pesos criterios rest)
                    + ((pl.map (fun x => npRound prec (peso * x))).sum - peso) := by
                simp only [Option.getD_some]
                ring
              rw [key]
              have htri := abs_add
                (massOf acc2 - (massOf acc + (pl.map (fun x => npRound prec (peso * x))).sum)
                  - sumPesos pesos criterios rest)
                ((pl.map (fun x => npRound prec (peso * x))).sum - peso)
              push_cast
              have hexpand : tol ℚ prec * ((pl.length : ℚ) + (round_count sub prios 0 rest : ℚ))
                  = tol ℚ prec * (round_count sub prios 0 rest : ℚ)
                    + (pl.length : ℚ) * tol ℚ prec := by ring
              rw [hexpand]
              linarith
            · intro v hv
              rcases ihx.2 v hv with hin | hlen
              · rcases List.mem_append.1 hin with hin2 | hin2
                · exact Or.inl hin2
                · right
                  rw [List.mem_singleton] at hin2
                  subst hin2
                  rw [List.length_map]
                  exact hfacts.2.2 hsubc
              · exact Or.inr hlen
  | succ f ihf =>
    intro rest
    induction rest with
    | nil =>
      intro pesos criterios acc acc2 hrun
      rw [global_priority_loop] at hrun
      cases hrun
      refine ⟨?_, fun v hv => Or.inl hv⟩
      simp only [sumPesos, List.map_nil, List.sum_nil, round_count_nil]
      simp
    | cons c rest ihr =>
      intro pesos criterios acc acc2 hrun
      rw [global_priority_loop] at hrun
      cases hpeso : pesoSel pesos criterios c with
      | none => rw [hpeso] at hrun; cases hrun
      | some peso =>
        rw [hpeso] at hrun
        cases hploc : lookupL prios c with
        | none => rw [hploc] at hrun; cases hrun
        | some pl =>
          rw [hploc] at hrun
          have hfacts := hok (c, pl) (lookupL_mem prios c pl hploc)
          have hpgsum : |(pl.map (fun x => npRound prec (peso * x))).sum - peso|
              ≤ (pl.length : ℚ) * tol ℚ prec := by
            have := scale_round_sum (p := prec) peso pl
            rw [hfacts.1, mul_one] at this
            exact this
          cases hsubc : lookupL sub c with
          | none =>
            rw [hsubc] at hrun
            simp only at hrun
            have ihx := ihr pesos criterios
              (acc ++ [pl.map (fun x => npRound prec (peso * x))]) acc2 hrun
            refine ⟨?_, ?_⟩
            · have h1 := ihx.1
              rw [massOf_append_single] at h1
              rw [sumPesos_cons, hpeso, round_count_cons_leaf hploc hsubc]
              have key : massOf acc2 - massOf acc
                  - ((some peso).getD 0 + sumPesos pesos criterios rest)
                  = (massOf acc2
                      - (massOf acc + (pl.map (fun x => npRound prec (peso * x))).sum)
                      - sumPesos pesos criterios rest)
                    + ((pl.map (fun x => npRound prec (peso * x))).sum - peso) := by
                simp only [Option.getD_some]
                ring
              rw [key]
              have htri := abs_add
                (massOf acc2 - (massOf acc + (pl.map (fun x => npRound prec (peso * x))).sum)
                  - sumPesos pesos criterios rest)
                ((pl.map (fun x => npRound prec (peso * x))).sum - peso)
              push_cast
              have hexpand : tol ℚ prec
                    * ((pl.length : ℚ) + (round_count sub prios (f + 1) rest : ℚ))
                  = tol ℚ prec * (round_count sub prios (f + 1) rest : ℚ)
                    + (pl.length : ℚ) * tol ℚ prec := by ring
              rw [hexpand]
              linarith
            · intro v hv
              rcases ihx.2 v hv with hin | hlen
              · rcases List.mem_append.1 hin with hin2 | hin2
                · exact Or.inl hin2
                · right
                  rw [List.mem_singleton] at hin2
                  subst hin2
                  rw [List.length_map]
                  exact hfacts.2.2 hsubc
              · exact Or.inr hlen
          | some ch =>
            rw [hsubc] at hrun
            simp only at hrun
            rw [descendOf_succ_eq] at hrun
            cases hres : global_priority_loop prec sub prios (descendOf prec sub prios f)
                (pl.map (fun x => npRound prec (peso * x))) ch ch acc with
            | err => rw [hres] at hrun; cases hrun
            | fuelOut => rw [hres] at hrun; cases hrun
            | ok acc3 =>
              rw [hres] at hrun
              simp only at hrun
              have hch_bound := ihf ch (pl.map (fun x => npRound prec (peso * x))) ch acc
                acc3 hres
              have hchfacts := hfacts.2.1 ch hsubc
              have hchsum : sumPesos (pl.map (fun x => npRound prec (peso * x))) ch ch
                  = (pl.map (fun x => npRound prec (peso * x))).sum := by
                apply sumPesos_self_of_nodup ch _ hchfacts.2
                rw [List.length_map]
                exact hchfacts.1
              have ihx := ihr pesos criterios acc3 acc2 hrun
              refine ⟨?_, ?_⟩
              · have h1 := ihx.1
                have h2 := hch_bound.1
                rw [hchsum] at h2
                rw [sumPesos_cons, hpeso, round_count_cons_internal hploc hsubc]
                have key : massOf acc2 - massOf acc
                    - ((some peso).getD 0 + sumPesos pesos criterios rest)
                    = (massOf acc2 - massOf acc3 - sumPesos pesos criterios rest)
                      + (massOf acc3 - massOf acc
                          - (pl.map (fun x => npRound prec (peso * x))).sum)
                      + ((pl.map (fun x => npRound prec (peso * x))).sum - peso) := by
                  simp only [Option.getD_some]
                  ring
                rw [key]
                have htri := abs_add_three
                  (massOf acc2 - massOf acc3 - sumPesos pesos criterios rest)
                  (massOf acc3 - massOf acc
                    - (pl.map (fun x => npRound prec (peso * x))).sum)
                  ((pl.map (fun x => npRound prec (peso * x))).sum - peso)
                push_cast
                have hexpand : tol ℚ prec * ((pl.length : ℚ) + (round_count sub prios f ch : ℚ)
                      + (round_count sub prios (f + 1) rest : ℚ))
                    = tol ℚ prec * (round_count sub prios (f + 1) rest : ℚ)
                      + tol ℚ prec * (round_count sub prios f ch : ℚ)
                      + (pl.length : ℚ) * tol ℚ prec := by ring
                rw [hexpand]
                linarith
              · intro v hv
                rcases ihx.2 v hv with hin | hlen
                · rcases hch_bound.2 v hin with hin2 | hlen2
                  · exact Or.inl hin2
                  · exact Or.inr hlen2
                · exact Or.inr hlen

theorem sumAxis0_length (n : ℕ) (l : List (List ℚ)) : (sumAxis0 n l).length = n := by
  simp [sumAxis0]

theorem sumAxis0_sum {n : ℕ} {l : List (List ℚ)} (hlen : ∀ v ∈ l, v.length = n) :
    (sumAxis0 n l).sum = massOf l := by
  unfold sumAxis0
  rw [list_range_map_sum, ← sum_map_swap l n (fun v j => v.getD j 0)]
  unfold massOf
  congr 1
  apply List.map_congr_left
  intro v hv
  have hs := sum_getD_range v
  rw [hlen v hv] at hs
  exact hs

/-- C8: conservation of probability mass across the hierarchy.  If the stored
local priority vectors all sum to 1 (leaf vectors over the alternatives,
internal vectors over their duplicate-free children) and the top-level weight
vector sums to 1, then whenever the aggregation completes, the final vector
obtained by summing all accumulated leaf contributions elementwise (and
rounding, as `resultado` does) has total sum 1 within rounding error: it
differs from 1 by at most half an ulp at `precisao` digits per scalar
rounding performed (one per entry scaled during the walk plus one per entry
of the final vector). -/
theorem claim_C8 (prec fuel nAlts : ℕ) (sub : List (String × List String))
    (prios : List (String × List ℚ)) (pesos : List ℚ) (criterios : List String)
    (acc2 : List (List ℚ))
    (hok : hierOk sub prios nAlts = true)
    (hnd : criterios.Nodup)
    (hlen : pesos.length = criterios.length)
    (hsum : pesos.sum = 1)
    (hrun : global_priority_vector prec sub prios fuel pesos criterios [] = Res.ok acc2) :
    |((sumAxis0 nAlts acc2).map (npRound prec)).sum - 1|
      ≤ tol ℚ prec * ((round_count sub prios fuel criterios : ℚ) + (nAlts : ℚ)) := by
  rw [gpv_eq_loop] at hrun
  have hP := hierOk_toP hok
  obtain ⟨hb, hmem⟩ := gpv_mass_bound prec sub prios nAlts hP fuel criterios pesos criterios
    [] acc2 hrun
  have hmass : |massOf acc2 - 1| ≤ tol ℚ prec * (round_count sub prios fuel criterios : ℚ) := by
    have h0 : massOf ([] : List (List ℚ)) = 0 := rfl
    rw [h0, sumPesos_self_of_nodup criterios pesos hnd hlen, hsum] at hb
    simpa using hb
  have hlens : ∀ v ∈ acc2, v.length = nAlts := by
    intro v hv
    rcases hmem v hv with hin | hl
    · cases hin
    · exact hl
  have hax : (sumAxis0 nAlts acc2).sum = massOf acc2 := sumAxis0_sum hlens
  have hround := abs_sum_map_npRound_sub prec (sumAxis0 nAlts acc2)
  rw [hax, sumAxis0_length] at hround
  have key : ((sumAxis0 nAlts acc2).map (npRound prec)).sum - 1
      = (((sumAxis0 nAlts acc2).map (npRound prec)).sum - massOf acc2) + (massOf acc2 - 1) := by
    ring
  rw [key]
  have htri := abs_add (((sumAxis0 nAlts acc2).map (npRound prec)).sum - massOf acc2)
    (massOf acc2 - 1)
  have hexpand : tol ℚ prec * ((round_count sub prios fuel criterios : ℚ) + (nAlts : ℚ))
      = (nAlts : ℚ) * tol ℚ prec
        + tol ℚ prec * (round_count sub prios fuel criterios : ℚ) := by ring
  rw [hexpand]
  linarith

section RatKernelComputableD

attribute [local semireducible] Rat.add Rat.mul Rat.inv Rat.sub

/-- Witness for C8 on a concrete two-level hierarchy (criterion c1 with
children s1, s2, leaf criterion c2; every vector [1/2, 1/2]) at precision 2
and budget 2. -/
theorem claim_C8_witness :
    |((sumAxis0 2 [[12/100, 12/100], [12/100, 12/100], [1/4, 1/4]]).map
        (npRound 2)).sum - 1|
      ≤ tol ℚ 2 * ((round_count [("c1", ["s1", "s2"])]
          [("criterios", [1/2, 1/2]), ("c1", [1/2, 1/2]), ("c2", [1/2, 1/2]),
           ("s1", [1/2, 1/2]), ("s2", [1/2, 1/2])] 2 ["c1", "c2"] : ℚ) + (2 : ℚ)) :=
  claim_C8 2 2 2 [("c1", ["s1", "s2"])]
    [("criterios", [1/2, 1/2]), ("c1", [1/2, 1/2]), ("c2", [1/2, 1/2]),
     ("s1", [1/2, 1/2]), ("s2", [1/2, 1/2])]
    [1/2, 1/2] ["c1", "c2"] [[12/100, 12/100], [12/100, 12/100], [1/4, 1/4]]
    (by decide) (by decide) (by decide) (by decide) (by decide)

end RatKernelComputableD
